import Mathlib

set_option exponentiation.threshold 10000
set_option maxRecDepth 8000

/-!
Shallow embedding of the d2mpq MPQ-archive reader (package `d2mpq` of
nicholas-eden/D2Shared).  Machine `uint32` values are modelled as `Nat`
with explicit reduction modulo `2^32` wherever Go's arithmetic can
overflow; Go strings are modelled as lists of rune code points
(`List Nat`); Go byte slices as `List Nat`.  Fallible operations return
`Except`/`Option`.
-/

/-- `2^32`, the modulus of Go's `uint32` arithmetic. -/
def M32 : Nat := 4294967296

/-- The rune code points of a Lean string literal, used to transcribe the
Go string literals of the source. -/
def runes (s : String) : List Nat := s.data.map Char.toNat

/-- Modelled from the spec: the precomputed 0x500-entry (1280-word)
keystream table (`CryptoBuffer` of package `d2mpq`, generated by
`cryptoBufInit`, which is not under src/).  The spec describes it as a
fixed table of 32-bit pseudo-random words produced once by a
deterministic seeded generator; this is the classic generator of the MPQ
format family: a multiplicative congruential sequence
`s := (s * 125 + 3) % 0x2AAAAB` from seed `0x00100001`, two steps per
table slot, slots written in the order `index1 + 0x100 * i` for
`index1 < 0x100`, `i < 5`.  `cryptSeedAt n` is the seed after `n`
steps; the slot at flat index `idx` was the `(idx % 0x100) * 5 + idx / 0x100`-th
slot written. -/
def cryptSeedStep (s : Nat) : Nat := (s * 125 + 3) % 0x2AAAAB

/-- Seed of the keystream generator after `n` steps, in closed affine
form (`cryptSeedAt_eq_iterate` below proves it equal to iterating
`cryptSeedStep`); the closed form keeps kernel evaluation shallow. -/
def cryptSeedAt (n : Nat) : Nat :=
  (125 ^ n * 0x00100001 + 3 * ((125 ^ n - 1) / 124)) % 0x2AAAAB

/-- The closed form `cryptSeedAt` agrees with iterating the generator
step from the seed `0x00100001`. -/
theorem cryptSeedAt_eq_iterate (n : Nat) :
    cryptSeedAt n = cryptSeedStep^[n] 0x00100001 := by
  induction n with
  | zero => simp [cryptSeedAt]
  | succ n ih =>
    rw [Function.iterate_succ_apply', ← ih]
    obtain ⟨q, hq⟩ : 124 ∣ 125 ^ n - 1 := by
      simpa using nat_sub_dvd_pow_sub_pow 125 1 n
    have hp : 1 ≤ 125 ^ n := Nat.one_le_pow _ _ (by norm_num)
    have h1 : (125 ^ n - 1) / 124 = q := by omega
    have h2 : (125 ^ (n + 1) - 1) / 124 = 125 * q + 1 := by
      rw [pow_succ]
      omega
    unfold cryptSeedAt cryptSeedStep
    rw [h1, h2]
    have hm := ((Nat.mod_modEq (125 ^ n * 0x00100001 + 3 * q) 0x2AAAAB).mul_right 125).add_right 3
    have h3 : (125 ^ n * 0x00100001 + 3 * q) * 125 + 3
        = 125 ^ (n + 1) * 0x00100001 + 3 * (125 * q + 1) := by
      rw [pow_succ]
      ring
    exact (hm.trans (by rw [h3])).symm

/-- Modelled from the spec: the keystream table lookup `CryptoBuffer[idx]`.
The `k`-th written slot packs the low 16 bits of the seeds after steps
`2k+1` and `2k+2` as `(hi <<< 16) ||| lo`. -/
def CryptoBuffer (idx : Nat) : Nat :=
  let k := (idx % 0x100) * 5 + idx / 0x100
  (cryptSeedAt (2 * k + 1) % 0x10000) * 0x10000 + cryptSeedAt (2 * k + 2) % 0x10000

/-- Embedding of Go `strings.ToUpper` on a single rune, restricted to the
ASCII fragment of the Unicode mapping (archive names are ASCII). -/
def goUpperRune (c : Nat) : Nat := if 97 ≤ c ∧ c ≤ 122 then c - 32 else c

/-- Embedding of Go `strings.ToLower` on a single rune, restricted to the
ASCII fragment of the Unicode mapping. -/
def goLowerRune (c : Nat) : Nat := if 65 ≤ c ∧ c ≤ 90 then c + 32 else c

/-- Embedding of Go `strings.ToUpper` (ASCII fragment), rune-wise. -/
def goToUpper (key : List Nat) : List Nat := key.map goUpperRune

/-- The seed folding loop of `hashString`: for each rune of the
upper-cased key,
`seed1 = CryptoBuffer[(hashType*0x100)+char] ^ (seed1 + seed2)` and
`seed2 = char + seed1 + seed2 + (seed2 << 5) + 3` in `uint32`
arithmetic; returns the final `seed1`. -/
def hashLoop : List Nat → Nat → Nat → Nat → Nat
  | [], _, seed1, _ => seed1
  | ch :: rest, hashType, seed1, seed2 =>
    let seed1a := CryptoBuffer (hashType * 0x100 + ch) ^^^ ((seed1 + seed2) % M32)
    let seed2a := (ch + seed1a + seed2 + seed2 * 32 + 3) % M32
    hashLoop rest hashType seed1a seed2a

/-- Embedding of `hashString` (wallrecord.go:393-404): upper-cases the
key, then folds `hashLoop` from `seed1 = 0x7FED7FED`,
`seed2 = 0xEEEEEEEE`. -/
def hashString (key : List Nat) (hashType : Nat) : Nat :=
  hashLoop (goToUpper key) hashType 0x7FED7FED 0xEEEEEEEE

/-- The primary-seed recurrence of `decrypt`/`decryptBytes`
(wallrecord.go:371,383): `seed = ((^seed << 21) + 0x11111111) | (seed >> 11)`
in `uint32` arithmetic (`^` is 32-bit complement). -/
def seedStep (s : Nat) : Nat :=
  ((((0xFFFFFFFF ^^^ s) <<< 21) + 0x11111111) % M32) ||| (s >>> 11)

/-- The loop body chain of `decrypt` (wallrecord.go:363-375), threading
`(seed, seed2)` word to word:
`seed2 += CryptoBuffer[0x400+(seed&0xff)]`;
`result = data[i] ^ (seed+seed2)`; `seed = seedStep seed`;
`seed2 = result + seed2 + (seed2<<5) + 3`. -/
def decryptLoop : List Nat → Nat → Nat → List Nat
  | [], _, _ => []
  | w :: rest, seed, seed2 =>
    let seed2a := (seed2 + CryptoBuffer (0x400 + seed % 0x100)) % M32
    let result := w ^^^ ((seed + seed2a) % M32)
    result :: decryptLoop rest (seedStep seed) ((result + seed2a + seed2a * 32 + 3) % M32)

/-- Embedding of `decrypt` (wallrecord.go:363-375): in-place word
decryption modelled as a list transform; `seed2` starts at the fixed
constant `0xEEEEEEEE`. -/
def decrypt (data : List Nat) (seed : Nat) : List Nat :=
  decryptLoop data seed 0xEEEEEEEE

/-- Instrumented variant of `decryptLoop` that additionally returns the
sequence of primary-seed values consumed at each step (the value of
`seed` at the top of each iteration); `.1` is proved equal to
`decryptLoop` below. -/
def decryptLoopT : List Nat → Nat → Nat → List Nat × List Nat
  | [], _, _ => ([], [])
  | w :: rest, seed, seed2 =>
    let seed2a := (seed2 + CryptoBuffer (0x400 + seed % 0x100)) % M32
    let result := w ^^^ ((seed + seed2a) % M32)
    let t := decryptLoopT rest (seedStep seed) ((result + seed2a + seed2a * 32 + 3) % M32)
    (result :: t.1, seed :: t.2)

/-- Embedding of `decryptBytes` (wallrecord.go:377-391): the loop
`for i := 0; i < len(data)-3; i += 4` processes one full 4-byte
little-endian word per iteration, so exactly `len/4` words are
transformed and the trailing `len mod 4` bytes fall through unchanged. -/
def decryptBytesLoop : List Nat → Nat → Nat → List Nat
  | b0 :: b1 :: b2 :: b3 :: rest, seed, seed2 =>
    let seed2a := (seed2 + CryptoBuffer (0x400 + seed % 0x100)) % M32
    let w := b0 + 256 * b1 + 65536 * b2 + 16777216 * b3
    let result := w ^^^ ((seed + seed2a) % M32)
    result % 256 :: result / 256 % 256 :: result / 65536 % 256 :: result / 16777216 % 256 ::
      decryptBytesLoop rest (seedStep seed) ((result + seed2a + seed2a * 32 + 3) % M32)
  | rest, _, _ => rest

/-- Embedding of `decryptBytes` (wallrecord.go:377-391), entry point:
`seed2` starts at the fixed constant `0xEEEEEEEE`. -/
def decryptBytes (data : List Nat) (seed : Nat) : List Nat :=
  decryptBytesLoop data seed 0xEEEEEEEE

/-- `goUpperRune` is idempotent: upper-casing an already upper-cased
rune is the identity. -/
theorem goUpperRune_idem (c : Nat) : goUpperRune (goUpperRune c) = goUpperRune c := by
  by_cases h : 97 ≤ c ∧ c ≤ 122
  · simp only [goUpperRune, h, and_self, if_true]
    rw [if_neg (by omega)]
  · simp [goUpperRune, h]

/-- Claim C6: `hashString` is deterministic and case-insensitive: for
every rune sequence `s` and every hash family selector `t`,
`hashString s t = hashString (goToUpper s) t`; in particular
`hashString "FOO.TXT" 1 = hashString "foo.txt" 1`. -/
theorem hashString_case_insensitive :
    (∀ (s : List Nat) (t : Nat), hashString s t = hashString (goToUpper s) t) ∧
    hashString (runes "FOO.TXT") 1 = hashString (runes "foo.txt") 1 := by
  constructor
  · intro s t
    unfold hashString goToUpper
    rw [List.map_map]
    congr 1
    exact (List.map_congr_left fun c _ => (goUpperRune_idem c).symm)
  · decide

/-- The output component of the instrumented decrypt loop agrees with
`decryptLoop`. -/
theorem decryptLoopT_fst (data : List Nat) : ∀ (s s2 : Nat),
    (decryptLoopT data s s2).1 = decryptLoop data s s2 := by
  induction data with
  | nil => intro s s2; rfl
  | cons w rest ih => intro s s2; simp only [decryptLoopT, decryptLoop, ih]

/-- The primary-seed trace of the decrypt loop is
`seed, seedStep seed, seedStep² seed, …`, independent of the data words
and of the secondary seed. -/
theorem decryptLoopT_seeds (data : List Nat) : ∀ (s s2 : Nat),
    (decryptLoopT data s s2).2 = (List.range data.length).map (fun i => seedStep^[i] s) := by
  induction data with
  | nil => intro s s2; rfl
  | cons w rest ih =>
    intro s s2
    simp only [decryptLoopT, ih, List.length_cons, List.range_succ_eq_map, List.map_cons,
      List.map_map, Function.iterate_zero, id_eq, List.cons.injEq, true_and]
    exact List.map_congr_left fun i _ => (Function.iterate_succ_apply seedStep i s).symm

/-- Claim C7: in `decrypt`, the secondary seed starts at the fixed
constant `0xEEEEEEEE` and is updated from the decrypted output word,
while the primary seed evolves by the data-independent recurrence
`seedStep`: the instrumented loop `decryptLoopT` computes the same
outputs as `decryptLoop`, its primary-seed trace is identical for any
two inputs of equal length under the same seed, and a fixed data vector
with a fixed seed reproduces a fixed golden output. -/
theorem decrypt_primary_seed_independent :
    (∀ (data : List Nat) (seed seed2 : Nat),
      (decryptLoopT data seed seed2).1 = decryptLoop data seed seed2) ∧
    (∀ (d1 d2 : List Nat) (seed : Nat), d1.length = d2.length →
      (decryptLoopT d1 seed 0xEEEEEEEE).2 = (decryptLoopT d2 seed 0xEEEEEEEE).2) ∧
    decrypt [1, 2, 3, 4] 0xDEADBEEF = [1573918393, 1490768083, 3534567239, 1922691226] :=
  ⟨decryptLoopT_fst,
   fun d1 d2 seed h => by rw [decryptLoopT_seeds, decryptLoopT_seeds, h],
   by decide⟩

/-- Witness for C7 at a concrete input: two different two-word inputs
under seed 7 produce the same primary-seed trace. -/
theorem decrypt_primary_seed_independent_witness :
    (decryptLoopT [0, 1] 7 0xEEEEEEEE).2 = (decryptLoopT [5, 6] 7 0xEEEEEEEE).2 :=
  decrypt_primary_seed_independent.2.1 [0, 1] [5, 6] 7 rfl


/-- Frame property of the `decryptBytes` loop, by induction on a length
fuel: for every pair of seeds, the output has the input's length and the
bytes from position `4 * (len / 4)` on are returned unchanged. -/
theorem decryptBytesLoop_frame : ∀ (n : Nat) (data : List Nat), data.length ≤ n →
    ∀ (s s2 : Nat),
    (decryptBytesLoop data s s2).length = data.length ∧
    (decryptBytesLoop data s s2).drop (4 * (data.length / 4)) =
      data.drop (4 * (data.length / 4)) := by
  intro n
  induction n with
  | zero =>
    intro data h s s2
    rcases data with _ | ⟨a, t⟩
    · exact ⟨rfl, rfl⟩
    · simp at h
  | succ n ih =>
    intro data hlen s s2
    rcases data with _ | ⟨b0, _ | ⟨b1, _ | ⟨b2, _ | ⟨b3, rest⟩⟩⟩⟩
    · exact ⟨rfl, rfl⟩
    · exact ⟨rfl, rfl⟩
    · exact ⟨rfl, rfl⟩
    · exact ⟨rfl, rfl⟩
    · have hr : rest.length ≤ n := by
        simp only [List.length_cons] at hlen
        omega
      have hlen2 := fun s' s2' => (ih rest hr s' s2').1
      constructor
      · simp only [decryptBytesLoop, List.length_cons, hlen2]
      · have h4 : 4 * ((b0 :: b1 :: b2 :: b3 :: rest).length / 4) =
            4 * (rest.length / 4) + 4 := by
          simp only [List.length_cons]
          omega
        rw [h4]
        exact (ih rest hr (seedStep s) _).2

/-- Claim C8: for every byte buffer and every seed, `decryptBytes`
transforms only the leading `4 * (len / 4)` bytes: the output has the
same length, the trailing `len mod 4` bytes are byte-for-byte unchanged,
and a buffer shorter than 4 bytes is returned entirely unchanged. -/
theorem decryptBytes_trailing_unchanged (data : List Nat) (seed : Nat) :
    (decryptBytes data seed).length = data.length ∧
    (decryptBytes data seed).drop (4 * (data.length / 4)) =
      data.drop (4 * (data.length / 4)) ∧
    (data.length < 4 → decryptBytes data seed = data) := by
  obtain ⟨h1, h2⟩ := decryptBytesLoop_frame data.length data le_rfl seed 0xEEEEEEEE
  refine ⟨h1, h2, fun hlt => ?_⟩
  have h0 : data.length / 4 = 0 := Nat.div_eq_of_lt hlt
  rw [h0] at h2
  simpa using h2

/-- Witness for C8 at a concrete input: a 3-byte buffer is returned
unchanged. -/
theorem decryptBytes_trailing_unchanged_witness : decryptBytes [1, 2, 3] 5 = [1, 2, 3] :=
  (decryptBytes_trailing_unchanged [1, 2, 3] 5).2.2 (by decide)

/-- Error kinds of the per-file operations: `fileNotFound` embeds
`errors.New("file not found")` of `getFileHashEntry`; `streamError`
stands for a failure of the sector-extraction stream (`CreateStream`). -/
inductive MpqErr where
  | fileNotFound
  | streamError
  deriving DecidableEq

/-- Embedding of the `Data` header struct (wallrecord.go:176-186); the
magic signature is kept as its 4 raw bytes. -/
structure MpqData where
  Magic : List Nat
  HeaderSize : Nat
  ArchiveSize : Nat
  FormatVersion : Nat
  BlockSize : Nat
  HashTableOffset : Nat
  BlockTableOffset : Nat
  HashTableEntries : Nat
  BlockTableEntries : Nat
  deriving DecidableEq

/-- Embedding of `HashTableEntry` (wallrecord.go:189-195). -/
structure HashTableEntry where
  NamePartA : Nat
  NamePartB : Nat
  Locale : Nat
  Platform : Nat
  BlockIndex : Nat
  deriving DecidableEq

/-- Embedding of `BlockTableEntry` (wallrecord.go:231-239). -/
structure BlockTableEntry where
  FilePosition : Nat
  CompressedFileSize : Nat
  UncompressedFileSize : Nat
  Flags : Nat
  FileName : List Nat
  EncryptionSeed : Nat
  deriving DecidableEq

/-- The zero value `BlockTableEntry{}` of Go. -/
def BlockTableEntry.zero : BlockTableEntry :=
  { FilePosition := 0, CompressedFileSize := 0, UncompressedFileSize := 0,
    Flags := 0, FileName := [], EncryptionSeed := 0 }

/-- `FileFixKey` flag (wallrecord.go:215). -/
def FileFixKey : Nat := 0x00020000

/-- Embedding of `BlockTableEntry.HasFlag` (wallrecord.go:242-244). -/
def BlockTableEntry.HasFlag (v : BlockTableEntry) (flag : Nat) : Bool :=
  (v.Flags &&& flag) != 0

/-- Embedding of the `MPQ` archive struct (wallrecord.go:166-173); the
open `os.File` handle is not part of the pure state, and the
`fileCache` map is modelled as an association list with unique keys. -/
structure MPQ where
  FileName : List Nat
  Data : MpqData
  HashTableEntries : List HashTableEntry
  BlockTableEntries : List BlockTableEntry
  fileCache : List (List Nat × List Nat)
  deriving DecidableEq

/-- The scan loop of `getFileHashEntry` (wallrecord.go:410-416): skip
entries whose name parts differ, return the first match. -/
def findHashEntry (hashA hashB : Nat) : List HashTableEntry → Except MpqErr HashTableEntry
  | [] => .error .fileNotFound
  | hashEntry :: rest =>
    if hashEntry.NamePartA ≠ hashA ∨ hashEntry.NamePartB ≠ hashB then
      findHashEntry hashA hashB rest
    else .ok hashEntry

/-- Embedding of `getFileHashEntry` (wallrecord.go:406-418). -/
def getFileHashEntry (v : MPQ) (fileName : List Nat) : Except MpqErr HashTableEntry :=
  findHashEntry (hashString fileName 1) (hashString fileName 2) v.HashTableEntries

/-- Embedding of `getFileBlockData` (wallrecord.go:421-427).  Note the
Go source returns `BlockTableEntry{}, err` when
`fileEntry.BlockIndex >= len(v.BlockTableEntries)`, and on that path
`err` is `nil`: the zero block entry is returned with no error. -/
def getFileBlockData (v : MPQ) (fileName : List Nat) : Except MpqErr BlockTableEntry :=
  match getFileHashEntry v fileName with
  | .error err => .error err
  | .ok fileEntry =>
    if v.BlockTableEntries.length ≤ fileEntry.BlockIndex then .ok BlockTableEntry.zero
    else .ok (v.BlockTableEntries.getD fileEntry.BlockIndex BlockTableEntry.zero)

/-- Embedding of `FileExists` (wallrecord.go:437-440): hashes the name
exactly as given, with no normalization. -/
def FileExists (v : MPQ) (fileName : List Nat) : Bool :=
  match getFileHashEntry v fileName with
  | .ok _ => true
  | .error _ => false

/-- Embedding of Go `strings.ReplaceAll` as fueled left-to-right
replacement of non-overlapping occurrences; the fuel is instantiated
with the string's length, which suffices because each step consumes at
least one element. -/
def replaceAllGo (pat rep : List Nat) : Nat → List Nat → List Nat
  | _, [] => []
  | 0, l => l
  | fuel + 1, c :: rest =>
    if pat ≠ [] ∧ pat.isPrefixOf (c :: rest) then
      rep ++ replaceAllGo pat rep fuel ((c :: rest).drop pat.length)
    else
      c :: replaceAllGo pat rep fuel rest

/-- Embedding of Go `strings.ReplaceAll s pat rep` (for the nonempty
patterns used by the source). -/
def goReplaceAll (s pat rep : List Nat) : List Nat := replaceAllGo pat rep s.length s

/-- The locale placeholder literal `{LANG}` of `ReadFile`
(wallrecord.go:444). -/
def langToken : List Nat := runes "{LANG}"

/-- Modelled from the spec: the active locale code
`d2resource.LanguageCode` (package `d2resource` is not under src/); the
spec describes it as the configurable active language code substituted
for the placeholder token.  No claim depends on its value. -/
def LanguageCode : List Nat := runes "eng"

/-- Embedding of the name normalization performed by `ReadFile`
(wallrecord.go:444-446): substitute `{LANG}` with the locale code, then
lower-case, then replace `/` (47) with `\` (92). -/
def normalizeFileName (fileName : List Nat) : List Nat :=
  goReplaceAll ((goReplaceAll fileName langToken LanguageCode).map goLowerRune) [47] [92]

/-- Canonical split of a rune sequence at a separator: segments between
separator occurrences, in order; the result is always nonempty. -/
def splitOnSep (sep : Nat) : List Nat → List (List Nat)
  | [] => [[]]
  | c :: rest =>
    if c = sep then [] :: splitOnSep sep rest
    else
      match splitOnSep sep rest with
      | s :: ss => (c :: s) :: ss
      | [] => [[c]]

/-- Embedding of Go `path.Base` (used at wallrecord.go:477): `"."` for
the empty path, else strip trailing `/`, take the part after the last
`/`, and return `"/"` when nothing remains.  It splits at `/` (47)
only, never at `\` (92). -/
def goPathBase (p : List Nat) : List Nat :=
  if p = [] then runes "."
  else
    let p1 := (p.reverse.dropWhile (fun c => c == 47)).reverse
    let p2 := (splitOnSep 47 p1).getLastD []
    if p2 = [] then [47] else p2

/-- Embedding of `calculateEncryptionSeed` (wallrecord.go:476-483):
`seed = hashString(path.Base(v.FileName), 3)`, and when the fix-key
flag is set, `seed = (seed + FilePosition) ^ UncompressedFileSize` in
`uint32` arithmetic. -/
def calculateEncryptionSeed (v : BlockTableEntry) : BlockTableEntry :=
  let fileName := goPathBase v.FileName
  let v1 : BlockTableEntry := { v with EncryptionSeed := hashString fileName 3 }
  if !(v1.HasFlag FileFixKey) then v1
  else { v1 with
    EncryptionSeed := ((v1.EncryptionSeed + v1.FilePosition) % M32) ^^^ v1.UncompressedFileSize }

/-- Formalization of the claim's phrase "the final path component of the
normalized (lower-cased, canonical-separator) name": the segment after
the last canonical separator `\` (92).  Stated from the spec's words,
for comparison with what the source computes. -/
def specBasename (name : List Nat) : List Nat := (splitOnSep 92 name).getLastD []

/-- `replaceAllGo` with a single-rune pattern and single-rune
replacement is rune-wise substitution, given enough fuel. -/
theorem replaceAllGo_single (a b : Nat) : ∀ (fuel : Nat) (l : List Nat), l.length ≤ fuel →
    replaceAllGo [a] [b] fuel l = l.map (fun c => if c = a then b else c) := by
  intro fuel
  induction fuel with
  | zero =>
    intro l h
    rcases l with _ | ⟨c, t⟩
    · rfl
    · simp at h
  | succ n ih =>
    intro l h
    rcases l with _ | ⟨c, t⟩
    · rfl
    · have ht : t.length ≤ n := by
        simp only [List.length_cons] at h
        omega
      by_cases hc : c = a
      · subst hc
        have hpre : [c].isPrefixOf (c :: t) = true := by simp [List.isPrefixOf]
        simp [replaceAllGo, hpre, ih t ht]
      · have hpre : [a].isPrefixOf (c :: t) = false := by
          simp only [List.isPrefixOf, Bool.and_eq_false_imp, beq_eq_false_iff_ne, ne_eq]
          simp
          omega
        simp [replaceAllGo, hpre, hc, ih t ht]

/-- The canonical-separator replacement step leaves no `/` (47) in its
output. -/
theorem slash_not_mem_goReplaceAll (s : List Nat) : 47 ∉ goReplaceAll s [47] [92] := by
  unfold goReplaceAll
  rw [replaceAllGo_single 47 92 s.length s le_rfl]
  intro hmem
  rcases List.mem_map.mp hmem with ⟨c, _, hce⟩
  by_cases h : c = 47 <;> simp [h] at hce

/-- Normalized names contain no `/` (47): the last normalization step
replaced every occurrence with `\` (92). -/
theorem slash_not_mem_normalizeFileName (s : List Nat) : 47 ∉ normalizeFileName s :=
  slash_not_mem_goReplaceAll _

/-- `splitOnSep` always returns at least one segment. -/
theorem splitOnSep_ne_nil (sep : Nat) (l : List Nat) : splitOnSep sep l ≠ [] := by
  induction l with
  | nil => simp [splitOnSep]
  | cons c rest ih =>
    simp only [splitOnSep]
    split
    · simp
    · rcases h : splitOnSep sep rest with _ | ⟨s, ss⟩ <;> simp [h]

/-- Splitting at a separator that does not occur returns the whole
sequence as the only segment. -/
theorem splitOnSep_of_not_mem (sep : Nat) (l : List Nat) (h : sep ∉ l) :
    splitOnSep sep l = [l] := by
  induction l with
  | nil => rfl
  | cons c rest ih =>
    have hc : c ≠ sep := fun e => h (by rw [e]; exact List.mem_cons_self _ _)
    have hr : sep ∉ rest := fun m => h (List.mem_cons_of_mem _ m)
    simp only [splitOnSep, if_neg hc, ih hr]

/-- On a nonempty path containing no `/` (47), Go `path.Base` is the
identity: nothing is stripped and the whole path is the last segment. -/
theorem goPathBase_of_no_slash (p : List Nat) (h47 : 47 ∉ p) (hne : p ≠ []) :
    goPathBase p = p := by
  have hdw : p.reverse.dropWhile (fun c => c == 47) = p.reverse := by
    rcases hr : p.reverse with _ | ⟨c, t⟩
    · rfl
    · have hcp : c ∈ p := by
        rw [← List.mem_reverse, hr]
        exact List.mem_cons_self _ _
      have hc : c ≠ 47 := fun e => h47 (e ▸ hcp)
      rw [List.dropWhile_cons_of_neg]
      simp [hc]
  simp only [goPathBase, if_neg hne, hdw, List.reverse_reverse,
    splitOnSep_of_not_mem 47 p h47, List.getLastD]
  simp [hne]

/-- The zero value `Data{}` of Go, used as a placeholder header for
archives constructed directly in the statements below. -/
def MpqData.zero : MpqData := ⟨[], 0, 0, 0, 0, 0, 0, 0, 0⟩

/-- The name used in the C1 failing input. -/
def c1name : List Nat := runes "x"

/-- C1 failing input: an archive whose single hash entry matches the
name `x` but stores block index 5, with an empty block table. -/
def c1mpq : MPQ :=
  { FileName := runes "a.mpq", Data := MpqData.zero,
    HashTableEntries := [{ NamePartA := hashString c1name 1, NamePartB := hashString c1name 2,
                           Locale := 0, Platform := 0, BlockIndex := 5 }],
    BlockTableEntries := [], fileCache := [] }

/-- Claim C1 (code bug, evaluated at the failing input): the hash entry
for `x` matches (`FileExists` is true) and its stored block index 5 is
out of bounds for the empty block table, yet `getFileBlockData` returns
the zero block entry with NO error — the Go source returns
`BlockTableEntry{}, err` where `err` is `nil` on this path — instead of
the `FileNotFound` failure the claim requires. -/
theorem getFileBlockData_out_of_bounds_no_error :
    FileExists c1mpq c1name = true ∧
    c1mpq.BlockTableEntries.length = 0 ∧
    getFileBlockData c1mpq c1name = .ok BlockTableEntry.zero :=
  ⟨rfl, rfl, rfl⟩

/-- C3 counterexample input: the block entry as `ReadFile` builds it for
the requested name `dir/file.txt`, whose normalized form is
`dir\file.txt`. -/
def c3entry : BlockTableEntry :=
  { BlockTableEntry.zero with FileName := normalizeFileName (runes "dir/file.txt") }

/-- Claim C3 counterexample: for the resolved name `dir\file.txt` the
computed encryption seed is NOT the hash of the final path component
`file.txt` of the normalized name: `path.Base` splits at `/` only, and
the canonical separator is `\`. -/
theorem calculateEncryptionSeed_ne_spec_basename :
    (calculateEncryptionSeed c3entry).EncryptionSeed ≠
      hashString (specBasename c3entry.FileName) 3 := by decide

/-- Claim C3 (amended): normalized names contain no `/`, so `path.Base`
is the identity on them and the encryption seed computed just before a
read is the hash of the ENTIRE normalized name — `hashName(name, 3)`,
and `(hashName(name, 3) + filePosition) XOR uncompressedSize` when the
fix-key flag (0x20000) is set. -/
theorem calculateEncryptionSeed_full_name :
    (∀ (s : List Nat), 47 ∉ normalizeFileName s) ∧
    (∀ (v : BlockTableEntry), 47 ∉ v.FileName → v.FileName ≠ [] →
      (calculateEncryptionSeed v).EncryptionSeed =
        if v.HasFlag FileFixKey then
          ((hashString v.FileName 3 + v.FilePosition) % M32) ^^^ v.UncompressedFileSize
        else hashString v.FileName 3) := by
  refine ⟨slash_not_mem_normalizeFileName, fun v h47 hne => ?_⟩
  simp only [calculateEncryptionSeed, goPathBase_of_no_slash v.FileName h47 hne,
    BlockTableEntry.HasFlag]
  by_cases hfb : v.Flags &&& FileFixKey = 0
  · simp [BlockTableEntry.HasFlag, hfb]
  · simp [BlockTableEntry.HasFlag, hfb]

/-- Witness for the amended C3 at a concrete input: a fix-key entry
named `war3map.j` at position 16, uncompressed size 32. -/
theorem calculateEncryptionSeed_full_name_witness :
    (calculateEncryptionSeed
      { FilePosition := 16, CompressedFileSize := 0, UncompressedFileSize := 32,
        Flags := FileFixKey, FileName := runes "war3map.j",
        EncryptionSeed := 0 }).EncryptionSeed =
      ((hashString (runes "war3map.j") 3 + 16) % M32) ^^^ 32 := by
  have h := calculateEncryptionSeed_full_name.2
    { FilePosition := 16, CompressedFileSize := 0, UncompressedFileSize := 32,
      Flags := FileFixKey, FileName := runes "war3map.j", EncryptionSeed := 0 }
    (by decide) (by decide)
  rw [h]
  rfl

/-- Association-list lookup modelling a Go map with list keys (keys are
unique by construction everywhere it is used). -/
def assocGet {α : Type} (k : List Nat) : List (List Nat × α) → Option α
  | [] => none
  | (k', v) :: rest => if k' = k then some v else assocGet k rest

/-- Modelled from the spec: the Sector Extractor
(`CreateStream`/`MPQStream.Read`, not under src/).  `ReadFile` creates a
stream for the prepared block entry and fills a buffer of
`UncompressedFileSize` bytes from it; the whole extraction is abstracted
as a function from the prepared block entry and the normalized name to
the filled buffer, or a stream-creation failure. -/
def StreamFn : Type := BlockTableEntry → List Nat → Except MpqErr (List Nat)

/-- Result of `ReadFile`: the returned bytes or error, the archive state
(with its content cache), and whether the locator/extractor path was
taken (`miss = false` means the call was served from the cache). -/
structure ReadOut where
  res : Except MpqErr (List Nat)
  arch : MPQ
  miss : Bool

/-- Embedding of `ReadFile` (wallrecord.go:443-465): substitute the
locale token, lower-case, canonicalize separators; serve from the
per-archive cache on hit; otherwise locate the block entry, lower-case
the name into it, compute the encryption seed, read via the stream, and
cache the buffer under the normalized name. -/
def ReadFile (v : MPQ) (stream : StreamFn) (fileName0 : List Nat) : ReadOut :=
  let fileName := normalizeFileName fileName0
  match assocGet fileName v.fileCache with
  | some cached => ⟨.ok cached, v, false⟩
  | none =>
    match getFileBlockData v fileName with
    | .error e => ⟨.error e, v, true⟩
    | .ok fbd0 =>
      let fbd := calculateEncryptionSeed { fbd0 with FileName := fileName.map goLowerRune }
      match stream fbd fileName with
      | .error e => ⟨.error e, v, true⟩
      | .ok buffer => ⟨.ok buffer, { v with fileCache := (fileName, buffer) :: v.fileCache }, true⟩

/-- Claim C9: `ReadFile` keys its per-archive content cache by the
normalized name, so after one successful read, a second call with any
name normalizing to the same key returns the identical byte buffer from
the cache, leaves the archive state unchanged, and does not invoke the
file locator or the sector extractor (`miss = false`). -/
theorem ReadFile_second_read_cached (v : MPQ) (stream : StreamFn) (n1 n2 b : List Nat)
    (hnorm : normalizeFileName n1 = normalizeFileName n2)
    (hok : (ReadFile v stream n1).res = .ok b) :
    ReadFile (ReadFile v stream n1).arch stream n2 =
      ⟨.ok b, (ReadFile v stream n1).arch, false⟩ := by
  simp only [ReadFile, ← hnorm] at hok ⊢
  cases hc : assocGet (normalizeFileName n1) v.fileCache with
  | some c =>
    simp only [hc] at hok ⊢
    obtain rfl : c = b := by simpa using hok
    simp [hc]
  | none =>
    simp only [hc] at hok ⊢
    cases hbd : getFileBlockData v (normalizeFileName n1) with
    | error e => simp [hbd] at hok
    | ok fbd =>
      simp only [hbd] at hok ⊢
      cases hs : stream
          (calculateEncryptionSeed { fbd with FileName := (normalizeFileName n1).map goLowerRune })
          (normalizeFileName n1) with
      | error e => simp [hs] at hok
      | ok buffer =>
        simp only [hs] at hok ⊢
        obtain rfl : buffer = b := by simpa using hok
        simp [assocGet]

/-- C9 witness input: an archive with one hash entry for `a.txt` and a
matching in-bounds block entry. -/
def c9mpq : MPQ :=
  { FileName := runes "base.mpq", Data := MpqData.zero,
    HashTableEntries := [{ NamePartA := hashString (runes "a.txt") 1,
                           NamePartB := hashString (runes "a.txt") 2,
                           Locale := 0, Platform := 0, BlockIndex := 0 }],
    BlockTableEntries := [{ BlockTableEntry.zero with UncompressedFileSize := 5 }],
    fileCache := [] }

/-- C9 witness stream: the extractor yields the bytes of `hello`. -/
def c9stream : StreamFn := fun _ _ => .ok (runes "hello")

/-- Witness for C9 at a concrete input: after reading `a.txt`, reading
`A.txt` (same normalized key) is served from the cache. -/
theorem ReadFile_second_read_cached_witness :
    ReadFile (ReadFile c9mpq c9stream (runes "a.txt")).arch c9stream (runes "A.txt") =
      ⟨.ok (runes "hello"), (ReadFile c9mpq c9stream (runes "a.txt")).arch, false⟩ :=
  ReadFile_second_read_cached c9mpq c9stream (runes "a.txt") (runes "A.txt") (runes "hello")
    (by decide) rfl

/-- C10 input: the requested name `a/b.txt` contains a `/` separator;
the archive's hash entry is keyed by the hashes of the normalized name
`a\b.txt`, which is how `ReadFile` will look it up. -/
def c10name : List Nat := runes "a/b.txt"

/-- C10 archive: one hash entry for the normalized name, one in-bounds
block entry. -/
def c10mpq : MPQ :=
  { FileName := runes "base.mpq", Data := MpqData.zero,
    HashTableEntries := [{ NamePartA := hashString (normalizeFileName c10name) 1,
                           NamePartB := hashString (normalizeFileName c10name) 2,
                           Locale := 0, Platform := 0, BlockIndex := 0 }],
    BlockTableEntries := [{ BlockTableEntry.zero with UncompressedFileSize := 2 }],
    fileCache := [] }

/-- C10 stream: the extractor yields the bytes of `hi`. -/
def c10stream : StreamFn := fun _ _ => .ok (runes "hi")

/-- Claim C10: `FileExists` hashes the requested name exactly as given,
with none of `ReadFile`'s normalization: for this archive and the name
`a/b.txt` (with `/` separators), `ReadFile` succeeds while `FileExists`
returns false for the same name string. -/
theorem FileExists_skips_normalization :
    (ReadFile c10mpq c10stream c10name).res = .ok (runes "hi") ∧
    FileExists c10mpq c10name = false :=
  ⟨rfl, rfl⟩

/-- Embedding of `strings.TrimRight(s, "\x00")` (wallrecord.go:491):
strip all trailing NUL bytes. -/
def trimRightNul (data : List Nat) : List Nat :=
  (data.reverse.dropWhile (fun c => c == 0)).reverse

/-- Embedding of `dropCR` of `bufio.ScanLines`: remove one trailing
carriage return (13) if present. -/
def dropCR (data : List Nat) : List Nat :=
  if data.getLast? = some 13 then data.dropLast else data

/-- Embedding of the `GetFileList` scan loop (wallrecord.go:492-497)
driving `bufio.Scanner` with `ScanLines`: the accumulator holds the
current token's bytes in reverse; a newline (10) emits the accumulated
token with one trailing `\r` stripped; at end of input a nonempty
remainder is emitted as a final token, an empty remainder is not. -/
def scanLinesGo (acc : List Nat) : List Nat → List (List Nat)
  | [] => if acc = [] then [] else [dropCR acc.reverse]
  | c :: rest =>
    if c = 10 then dropCR acc.reverse :: scanLinesGo [] rest
    else scanLinesGo (c :: acc) rest

/-- The scanned lines of a byte payload (empty starting accumulator). -/
def goScanLines (data : List Nat) : List (List Nat) := scanLinesGo [] data

/-- Embedding of `GetFileList` (wallrecord.go:486-499): read the
pseudo-file `(listfile)` via `ReadFile`, strip trailing NULs, and
return the scanned lines; the archive state (content cache) is
threaded through. -/
def GetFileList (v : MPQ) (stream : StreamFn) : Except MpqErr (List (List Nat)) × MPQ :=
  match ReadFile v stream (runes "(listfile)") with
  | ⟨.error e, v', _⟩ => (.error e, v')
  | ⟨.ok data, v', _⟩ => (.ok (goScanLines (trimRightNul data)), v')

/-- Drop a final empty segment from a segment list (the scanner emits no
token for the empty rest after a terminating newline). -/
def dropFinalEmpty : List (List Nat) → List (List Nat)
  | [] => []
  | [s] => if s = [] then [] else [s]
  | s :: rest => s :: dropFinalEmpty rest

/-- Declarative line splitting, stated from the spec's words: the
segments between `\n` (10) separators in stored order, each with one
trailing `\r` (13) removed; a final empty segment is dropped, interior
empty segments are kept. -/
def linesSpec (data : List Nat) : List (List Nat) :=
  (dropFinalEmpty (splitOnSep 10 data)).map dropCR

/-- `dropFinalEmpty` walks past a head segment when more segments
follow. -/
theorem dropFinalEmpty_cons_of_ne_nil (s : List Nat) (S : List (List Nat)) (h : S ≠ []) :
    dropFinalEmpty (s :: S) = s :: dropFinalEmpty S := by
  rcases S with _ | ⟨s', ss⟩
  · exact absurd rfl h
  · rfl

/-- Splitting at a separator distributes over an occurrence of the
separator after a separator-free prefix. -/
theorem splitOnSep_append_sep (sep : Nat) (r : List Nat) :
    ∀ (p : List Nat), sep ∉ p →
    splitOnSep sep (p ++ sep :: r) = p :: splitOnSep sep r := by
  intro p
  induction p with
  | nil => intro _; simp [splitOnSep]
  | cons c t ih =>
    intro h
    have hc : c ≠ sep := fun e => h (by rw [e]; exact List.mem_cons_self _ _)
    have ht : sep ∉ t := fun m => h (List.mem_cons_of_mem _ m)
    simp only [List.cons_append, splitOnSep, if_neg hc, List.append_eq, ih ht]

/-- Appending a newline and a rest after a newline-free prefix splits
the declarative lines as the prefix line followed by the rest's lines. -/
theorem linesSpec_append_newline (p r : List Nat) (hp : 10 ∉ p) :
    linesSpec (p ++ 10 :: r) = dropCR p :: linesSpec r := by
  unfold linesSpec
  rw [splitOnSep_append_sep 10 r p hp,
    dropFinalEmpty_cons_of_ne_nil p _ (splitOnSep_ne_nil 10 r)]
  rfl

/-- The operational scanner equals the declarative splitter, for any
newline-free accumulator. -/
theorem scanLinesGo_eq (data : List Nat) : ∀ (acc : List Nat), 10 ∉ acc →
    scanLinesGo acc data = linesSpec (acc.reverse ++ data) := by
  induction data with
  | nil =>
    intro acc hacc
    by_cases ha : acc = []
    · subst ha
      rfl
    · have hrev : acc.reverse ≠ [] := by simpa using ha
      have h10 : 10 ∉ acc.reverse := by simpa using hacc
      simp only [scanLinesGo, if_neg ha, List.append_nil, linesSpec,
        splitOnSep_of_not_mem 10 acc.reverse h10]
      simp only [dropFinalEmpty, if_neg hrev, List.map_cons, List.map_nil]
  | cons c rest ih =>
    intro acc hacc
    by_cases hc : c = 10
    · subst hc
      have h10 : 10 ∉ acc.reverse := by simpa using hacc
      simp [scanLinesGo, ih [] (by simp),
        linesSpec_append_newline acc.reverse rest h10]
    · have hacc' : 10 ∉ c :: acc := by
        intro hm
        rcases List.mem_cons.mp hm with h | h
        · exact hc h.symm
        · exact hacc h
      have := ih (c :: acc) hacc'
      simp only [scanLinesGo, if_neg hc, this, List.reverse_cons, List.append_assoc,
        List.cons_append, List.nil_append]

/-- C5 archive: one hash entry for `(listfile)` and a matching in-bounds
block entry. -/
def c5mpq : MPQ :=
  { FileName := runes "base.mpq", Data := MpqData.zero,
    HashTableEntries := [{ NamePartA := hashString (runes "(listfile)") 1,
                           NamePartB := hashString (runes "(listfile)") 2,
                           Locale := 0, Platform := 0, BlockIndex := 0 }],
    BlockTableEntries := [{ BlockTableEntry.zero with UncompressedFileSize := 4 }],
    fileCache := [] }

/-- C5 counterexample stream: the listfile payload is `a\n\nb`, which
contains an interior empty line. -/
def c5stream : StreamFn := fun _ _ => .ok (runes "a\n\nb")

/-- Claim C5 counterexample: for the listfile payload `a\n\nb`,
`GetFileList` returns `["a", "", "b"]` — the empty interior line IS in
the result, contradicting "no empty string ever appears in the result
for any payload" (the scan loop appends every scanned line, empty or
not). -/
theorem GetFileList_keeps_interior_empty_line :
    (GetFileList c5mpq c5stream).1 = .ok [[97], [], [98]] ∧
    [] ∈ [[97], ([] : List Nat), [98]] :=
  ⟨rfl, by simp⟩

/-- Claim C5 (amended): `GetFileList` strips trailing NUL padding and
splits on line boundaries with both `\n` and `\r\n` as separators,
returning ALL scanned lines in stored order — interior empty lines
included, only a final empty segment after a terminating newline
dropped; the documented payload `a.txt\r\nb.txt\r\n\x00\x00` still
parses to exactly `["a.txt", "b.txt"]`. -/
theorem GetFileList_scans_all_lines :
    (∀ (data : List Nat), goScanLines data = linesSpec data) ∧
    (∀ (v : MPQ) (stream : StreamFn) (d : List Nat) (v' : MPQ) (t : Bool),
      ReadFile v stream (runes "(listfile)") = ⟨.ok d, v', t⟩ →
      GetFileList v stream = (.ok (linesSpec (trimRightNul d)), v')) ∧
    goScanLines (trimRightNul (runes "a.txt\r\nb.txt\r\n\x00\x00")) =
      [runes "a.txt", runes "b.txt"] := by
  refine ⟨fun data => by simpa using scanLinesGo_eq data [] (by simp), ?_, by decide⟩
  intro v stream d v' t hread
  simp only [GetFileList, hread]
  rw [show goScanLines (trimRightNul d) = linesSpec (trimRightNul d) by
    simpa using scanLinesGo_eq (trimRightNul d) [] (by simp)]

/-- C5 witness stream: the listfile payload is `x\ny`. -/
def c5wstream : StreamFn := fun _ _ => .ok (runes "x\ny")

/-- Witness for the amended C5 at a concrete input: the archive state
after the read caches the payload under `(listfile)`, and the returned
list is the declarative line split of the payload. -/
theorem GetFileList_scans_all_lines_witness :
    GetFileList c5mpq c5wstream =
      (.ok (linesSpec (trimRightNul (runes "x\ny"))),
       { c5mpq with fileCache := [(runes "(listfile)", runes "x\ny")] }) :=
  GetFileList_scans_all_lines.2.1 c5mpq c5wstream (runes "x\ny")
    { c5mpq with fileCache := [(runes "(listfile)", runes "x\ny")] } true rfl

/-- Byte of a file image at an index (files are byte lists; reads past
the end are guarded by the length checks of `readWords`/`readData`). -/
def byteAt (file : List Nat) (i : Nat) : Nat := file.getD i 0

/-- Little-endian 16-bit word at a byte offset. -/
def le16 (file : List Nat) (i : Nat) : Nat := byteAt file i + 256 * byteAt file (i + 1)

/-- Little-endian 32-bit word at a byte offset. -/
def le32 (file : List Nat) (i : Nat) : Nat := le16 file i + 65536 * le16 file (i + 2)

/-- Embedding of seek + `binary.Read` of `n` little-endian `uint32`
words at byte offset `off`: `none` when the file is too short (the read
returns an error); seeking itself cannot fail for these non-negative
offsets. -/
def readWords (file : List Nat) (off n : Nat) : Option (List Nat) :=
  if off + 4 * n ≤ file.length then
    some ((List.range n).map (fun i => le32 file (off + 4 * i)))
  else none

/-- Outcomes of opening an archive: `ioError` embeds an error returned
to the caller, `invalidHeader` the bad-magic error, and `panicAbort` a
`log.Panic` — the process aborts instead of returning. -/
inductive LoadErr where
  | ioError
  | invalidHeader
  | panicAbort
  deriving DecidableEq

/-- The magic signature `MPQ\x1A` (wallrecord.go:311). -/
def magicMPQ : List Nat := runes "MPQ\x1A"

/-- Embedding of `loadHashTable` (wallrecord.go:319-340): seek to the
hash table offset, read `entries * 4` words, decrypt with the seed
`hashString("(hash table)", 3)`, and build the entries; a seek/read
failure calls `log.Panic` (`panicAbort`), not an error return. -/
def loadHashTable (file : List Nat) (d : MpqData) : Except LoadErr (List HashTableEntry) :=
  match readWords file d.HashTableOffset (d.HashTableEntries * 4) with
  | none => .error .panicAbort
  | some hashData =>
    let hd := decrypt hashData (hashString (runes "(hash table)") 3)
    .ok ((List.range d.HashTableEntries).map (fun i =>
      { NamePartA := hd.getD (i * 4) 0,
        NamePartB := hd.getD (i * 4 + 1) 0,
        Locale := hd.getD (i * 4 + 2) 0 / 65536,
        Platform := hd.getD (i * 4 + 2) 0 % 65536,
        BlockIndex := hd.getD (i * 4 + 3) 0 }))

/-- Embedding of `loadBlockTable` (wallrecord.go:342-361): like the hash
table, with the seed `hashString("(block table)", 3)`; the `FileName`
and `EncryptionSeed` fields start as Go zero values. -/
def loadBlockTable (file : List Nat) (d : MpqData) : Except LoadErr (List BlockTableEntry) :=
  match readWords file d.BlockTableOffset (d.BlockTableEntries * 4) with
  | none => .error .panicAbort
  | some blockData =>
    let bd := decrypt blockData (hashString (runes "(block table)") 3)
    .ok ((List.range d.BlockTableEntries).map (fun i =>
      { FilePosition := bd.getD (i * 4) 0,
        CompressedFileSize := bd.getD (i * 4 + 1) 0,
        UncompressedFileSize := bd.getD (i * 4 + 2) 0,
        Flags := bd.getD (i * 4 + 3) 0,
        FileName := [], EncryptionSeed := 0 }))

/-- Embedding of `binary.Read` of the 32-byte `Data` header struct at
the start of the file: `none` (an error) when the file is shorter. -/
def readData (file : List Nat) : Option MpqData :=
  if 32 ≤ file.length then
    some { Magic := file.take 4,
           HeaderSize := le32 file 4, ArchiveSize := le32 file 8,
           FormatVersion := le16 file 12, BlockSize := le16 file 14,
           HashTableOffset := le32 file 16, BlockTableOffset := le32 file 20,
           HashTableEntries := le32 file 24, BlockTableEntries := le32 file 28 }
  else none

/-- Embedding of `readHeader` (wallrecord.go:306-317): read the header
struct (failure is an error returned to `Load`), check the magic, then
run both table loads (whose failures are panics). -/
def readHeader (file : List Nat) :
    Except LoadErr (MpqData × List HashTableEntry × List BlockTableEntry) :=
  match readData file with
  | none => .error .ioError
  | some d =>
    if d.Magic ≠ magicMPQ then .error .invalidHeader
    else
      match loadHashTable file d with
      | .error e => .error e
      | .ok hs =>
        match loadBlockTable file d with
        | .error e => .error e
        | .ok bs => .ok (d, hs, bs)

/-- ASCII model of Go `strings.EqualFold`. -/
def equalFold (a b : List Nat) : Bool := a.map goLowerRune == b.map goLowerRune

/-- The host filesystem, modelled as one directory: a listing of
(name, contents) pairs; `openIgnoreCase`'s `filepath.Dir`/`Base` split
is elided by keeping all paths within this one directory. -/
def diskOpen (disk : List (List Nat × List Nat)) (name : List Nat) : Option (List Nat) :=
  assocGet name disk

/-- Embedding of `openIgnoreCase` (wallrecord.go:280-304): try the exact
name; on failure list the directory, take the first case-insensitive
match (or keep the original name), and open that.  The second component
counts the disk open operations performed. -/
def openIgnoreCase (disk : List (List Nat × List Nat)) (mpqPath : List Nat) :
    Option (List Nat) × Nat :=
  match diskOpen disk mpqPath with
  | some f => (some f, 1)
  | none =>
    let resolved := ((disk.find? (fun p => equalFold p.1 mpqPath)).map Prod.fst).getD mpqPath
    (diskOpen disk resolved, 2)

/-- Result of `Load`: the archive or error, the process-wide registry
after the call, and the number of disk open operations performed (0
means the call never touched the disk). -/
structure LoadOut where
  res : Except LoadErr MPQ
  reg : List (List Nat × MPQ)
  opens : Nat

/-- Embedding of `Load` (wallrecord.go:250-278) on the linux path: check
the process-wide registry under the mutex by the file name EXACTLY as
given; on hit return the cached archive; on miss open case-insensitively,
run `readHeader`, and register the result under the given name. -/
def Load (disk : List (List Nat × List Nat)) (fileName : List Nat)
    (reg : List (List Nat × MPQ)) : LoadOut :=
  match assocGet fileName reg with
  | some cached => ⟨.ok cached, reg, 0⟩
  | none =>
    match openIgnoreCase disk fileName with
    | (none, n) => ⟨.error .ioError, reg, n⟩
    | (some file, n) =>
      match readHeader file with
      | .error e => ⟨.error e, reg, n⟩
      | .ok (d, hs, bs) =>
        let result : MPQ := { FileName := fileName, Data := d, HashTableEntries := hs,
                              BlockTableEntries := bs, fileCache := [] }
        ⟨.ok result, (fileName, result) :: reg, n⟩

/-- C2 failing input: a 32-byte file with a valid magic signature whose
header demands 1 hash entry at offset 40, past the end of the file, so
the hash-table read fails. -/
def c2file : List Nat :=
  magicMPQ ++ List.replicate 12 0 ++ [40, 0, 0, 0] ++ [0, 0, 0, 0] ++ [1, 0, 0, 0] ++ [0, 0, 0, 0]

/-- Claim C2 counterexample: for `c2file` the header parses with a valid
magic and the hash-table read fails, yet `readHeader` does not return an
`IOError` — it panics (`log.Panic`), aborting the process. -/
theorem readHeader_no_ioError_on_table_failure :
    (readData c2file).map MpqData.Magic = some magicMPQ ∧
    readWords c2file 40 4 = none ∧
    readHeader c2file = .error .panicAbort ∧
    readHeader c2file ≠ .error .ioError := by
  refine ⟨rfl, rfl, rfl, fun h => ?_⟩
  rw [show readHeader c2file = Except.error LoadErr.panicAbort from rfl] at h
  exact absurd (Except.error.inj h) (by decide)

/-- Claim C2 (amended): for every archive file whose header parses with
a valid magic signature, a read failure while loading the hash table or
the block table makes `readHeader` (and hence `open`) abort via
`log.Panic` (`panicAbort`); it never surfaces as an `IOError` result. -/
theorem readHeader_table_read_failure_panics (file : List Nat) (d : MpqData)
    (hp : readData file = some d) (hm : d.Magic = magicMPQ)
    (hfail : readWords file d.HashTableOffset (d.HashTableEntries * 4) = none ∨
             readWords file d.BlockTableOffset (d.BlockTableEntries * 4) = none) :
    readHeader file = .error .panicAbort := by
  unfold readHeader
  rw [hp]
  simp only [hm, ne_eq, not_true_eq_false, if_false]
  cases hw : readWords file d.HashTableOffset (d.HashTableEntries * 4) with
  | none => simp [loadHashTable, hw]
  | some ws =>
    have hb : readWords file d.BlockTableOffset (d.BlockTableEntries * 4) = none := by
      rcases hfail with h | h
      · rw [h] at hw
        exact absurd hw (by simp)
      · exact h
    simp [loadHashTable, hw, loadBlockTable, hb]

/-- Witness for the amended C2 at the concrete failing file. -/
theorem readHeader_table_read_failure_panics_witness :
    readHeader c2file = Except.error LoadErr.panicAbort :=
  readHeader_table_read_failure_panics c2file
    { Magic := magicMPQ, HeaderSize := 0, ArchiveSize := 0, FormatVersion := 0, BlockSize := 0,
      HashTableOffset := 40, BlockTableOffset := 0, HashTableEntries := 1,
      BlockTableEntries := 0 }
    rfl rfl (Or.inl rfl)

/-- C4 disk: one file `Foo.mpq` holding a minimal valid archive — a
32-byte header with valid magic and empty hash and block tables. -/
def tinyMpqFile : List Nat := magicMPQ ++ List.replicate 28 0

/-- C4 disk listing. -/
def c4disk : List (List Nat × List Nat) := [(runes "Foo.mpq", tinyMpqFile)]

/-- Claim C4 counterexample: after `Load "Foo.mpq"`, a second
`Load "foo.mpq"` — a path differing only in case, resolving to the same
disk file — misses the registry (which is keyed by the path exactly as
given, not normalized), touches the disk again, and registers a second
archive: the registry ends with two entries instead of one. -/
theorem Load_registry_key_not_normalized :
    (Load c4disk (runes "foo.mpq") (Load c4disk (runes "Foo.mpq") []).reg).opens ≠ 0 ∧
    (Load c4disk (runes "foo.mpq") (Load c4disk (runes "Foo.mpq") []).reg).reg.length = 2 := by
  constructor
  · decide
  · decide

/-- Claim C4 (amended): the process-wide registry is keyed by the path
string exactly as given: only a repeated `Load` with the identical
string returns the already-registered archive without touching the disk
(`opens = 0`) and without changing the registry; paths that differ only
in case are distinct keys (case-insensitivity applies only to filesystem
resolution), so they re-open the file and register a duplicate archive,
as the counterexample shows. -/
theorem Load_exact_key_returns_cached (disk : List (List Nat × List Nat))
    (name : List Nat) (reg : List (List Nat × MPQ)) (m : MPQ)
    (h : assocGet name reg = some m) :
    Load disk name reg = ⟨.ok m, reg, 0⟩ := by
  unfold Load
  rw [h]

/-- A registered archive value for the C4 witness. -/
def c4m : MPQ :=
  { FileName := runes "Foo.mpq", Data := MpqData.zero, HashTableEntries := [],
    BlockTableEntries := [], fileCache := [] }

/-- Witness for the amended C4 at a concrete input: with `Foo.mpq`
registered, `Load` of the identical string returns it with zero disk
opens and an unchanged registry. -/
theorem Load_exact_key_returns_cached_witness :
    Load c4disk (runes "Foo.mpq") [(runes "Foo.mpq", c4m)] =
      ⟨.ok c4m, [(runes "Foo.mpq", c4m)], 0⟩ :=
  Load_exact_key_returns_cached c4disk (runes "Foo.mpq") [(runes "Foo.mpq", c4m)] c4m
    (by simp [assocGet])
